import Mathlib

/-!
# gorm-plugin-crypto: field-level encryption interceptors

A shallow embedding of `gorm_crypto.go` and `crypto/crypto_strategy_aes.go`.

* Go strings are byte sequences (`GoString`).
* A Go call that can panic returns `Go α := Except Panic α`.
* The libraries the repository calls but does not contain (the AES-ECB cipher of
  `lancet/cryptor`, `encoding/base64`, `strings.ToUpper`) are the fields of `Ext`;
  every definition that reaches them takes an `Ext` argument.
* The two process-wide variables `cryptoStrategies` and `cryptoFieldsMap` are
  passed explicitly (`Registry`, `Cache`).
-/

set_option autoImplicit false

namespace GormCrypto

/-! ## Go values -/

/-- A Go `[]byte`. -/
abbrev Bytes := List Nat

/-- A Go `string`: an immutable sequence of bytes. `[]byte(s)` and `string(b)` are
the identity on the underlying bytes. -/
abbrev GoString := List Nat

/-- The bytes of an ASCII literal. -/
def str (s : String) : GoString := s.toList.map Char.toNat

/-- The ways the embedded code can panic. -/
inductive Panic where
  /-- nil pointer dereference, or a method call on a nil interface -/
  | nilDeref
  /-- failed single-value type assertion `x.(T)` -/
  | typeAssertion
  /-- a `reflect` call on a type or value of the wrong kind -/
  | reflectKind
  /-- assignment to an entry of a nil map -/
  | nilMapWrite
  /-- Go `panic(err)` after `field.Set` returned an error -/
  | setError
  deriving DecidableEq, Repr

/-- Result of a Go call that either returns or panics. -/
abbrev Go (α : Type) := Except Panic α

/-- The external libraries used by the repository, as total functions: the
panics of the cipher on a key or an input of the wrong length are not modelled. -/
structure Ext where
  /-- Go `strings.ToUpper` -/
  ToUpper : GoString → GoString
  /-- Go `cryptor.AesEcbEncrypt(data, key)` -/
  AesEcbEncrypt : Bytes → Bytes → Bytes
  /-- Go `cryptor.AesEcbDecrypt(encrypted, key)` -/
  AesEcbDecrypt : Bytes → Bytes → Bytes
  /-- Go `base64.StdEncoding.EncodeToString` -/
  EncodeToString : Bytes → GoString
  /-- Go `base64.StdEncoding.DecodeString`, first result (the code discards the error) -/
  DecodeString : GoString → Bytes

/-- Go `reflect.Kind`, as far as the code distinguishes kinds of struct fields. -/
inductive Kind where
  | String
  | Int
  | Bool
  | Interface
  deriving DecidableEq, Repr

/-- A `schema.Field` (it embeds the `reflect.StructField` it was parsed from):
Go field name, column name, the result of `Tag.Lookup("crypto")` and
`FieldType.Kind()`. -/
structure Field where
  Name : GoString
  DBName : GoString
  Tag : Option GoString
  FieldType : Kind
  deriving DecidableEq, Repr

/-! ## strategy/crypto_strategy.go, crypto/crypto_strategy_aes.go -/

/-- The interface `strategy.CryptoStrategy`. The `field` argument is a
`*schema.Field` and may be nil. The `db` argument is not modelled: no strategy of
the repository reads it. -/
structure CryptoStrategy where
  Name : GoString
  Encrypt : GoString → Option Field → GoString
  Decrypt : GoString → Option Field → GoString

/-- The ciphertext marker `"{AES}"`. -/
def aesMarker : GoString := str "\x7bAES\x7d"

/-- Go `strings.HasPrefix(s, p)`: `len(s) >= len(p) && s[:len(p)] == p`. -/
def HasPrefix (s p : GoString) : Bool :=
  decide (p.length ≤ s.length) && decide (s.take p.length = p)

/-- Go `EncryptValue(str, key)`. -/
def EncryptValue (x : Ext) (s key : GoString) : GoString :=
  aesMarker ++ x.EncodeToString (x.AesEcbEncrypt s key)

/-- Go `DecryptValue(str, key)`; `str[5:]` is `s.drop 5`. -/
def DecryptValue (x : Ext) (s key : GoString) : GoString :=
  if HasPrefix s aesMarker then
    let rs := x.DecodeString (s.drop 5)
    x.AesEcbDecrypt rs key
  else s

/-- Method `(*AesCryptoStrategy).Encrypt`; `secretKey` is the receiver's field. -/
def AesCryptoStrategy.Encrypt (x : Ext) (secretKey src : GoString) (_field : Option Field) :
    GoString :=
  if src.length = 0 then [] else EncryptValue x src secretKey

/-- Method `(*AesCryptoStrategy).Decrypt`. -/
def AesCryptoStrategy.Decrypt (x : Ext) (secretKey src : GoString) (_field : Option Field) :
    GoString :=
  if src.length = 0 then [] else DecryptValue x src secretKey

/-- Go `NewAesCryptoStrategy(secretKey)` seen through the interface; `Name()` is `"AES"`. -/
def NewAesCryptoStrategy (x : Ext) (secretKey : GoString) : CryptoStrategy where
  Name := str "AES"
  Encrypt := AesCryptoStrategy.Encrypt x secretKey
  Decrypt := AesCryptoStrategy.Decrypt x secretKey

/-- The cipher and the base64 codec are inverse pairs for the key `key`. -/
def Ext.Inverse (x : Ext) (key : GoString) : Prop :=
  (∀ d : Bytes, x.AesEcbDecrypt (x.AesEcbEncrypt d key) key = d) ∧
  (∀ b : Bytes, x.DecodeString (x.EncodeToString b) = b)

/-- A small instance of the external libraries: ASCII upper-casing, a cipher
that puts the key in front of the data, and a codec that reverses the bytes. -/
def Ext.sample : Ext where
  ToUpper := fun s => s.map (fun c => if 97 ≤ c ∧ c ≤ 122 then c - 32 else c)
  AesEcbEncrypt := fun d key => key ++ d
  AesEcbDecrypt := fun d key => d.drop key.length
  EncodeToString := fun b => b.reverse
  DecodeString := fun s => s.reverse

/-! ## Dynamic values, struct instances, reflection -/

/-- The dynamic value of a Go `interface{}`, for the types the code tells apart.
Values of named types (such as `type Email string`) are not modelled. -/
inductive Value where
  /-- the nil interface -/
  | nil
  /-- a `string` -/
  | str (s : GoString)
  /-- an integer -/
  | int (n : Int)
  /-- a `bool` -/
  | bool (b : Bool)
  /-- a non-nil `*CryptoValue` with its `Column` and `Value` -/
  | cryptoValue (column value : GoString)
  /-- a `clause.Column` with its `Table` and `Name` -/
  | column (table name : GoString)
  deriving DecidableEq, Repr

/-- Go `NewCryptoValue(column, val)`. -/
def NewCryptoValue (column val : GoString) : Value := Value.cryptoValue column val

/-- Go `cast.ToString` (spf13/cast): strings are returned as they are, numbers and
booleans are formatted, nil gives `""`, and for a type it does not know the
function returns `""` with an error that the code drops. -/
def castToString : Value → GoString
  | .str s => s
  | .int n => str (toString n)
  | .bool b => str (toString b)
  | _ => []

/-- Go `reflect.Value.IsZero`. -/
def isZero : Value → Bool
  | .nil => true
  | .str s => decide (s = [])
  | .int n => decide (n = 0)
  | .bool b => !b
  | .cryptoValue _ _ => false
  | .column t n => decide (t = [] ∧ n = [])

/-- Go `reflect.Value.String()`: the string itself for a value of kind String, and
a text of the form `<T Value>` for any other kind. -/
def reflectString : Value → GoString
  | .str s => s
  | .nil => str "<interface \x7b\x7d Value>"
  | .int _ => str "<int Value>"
  | .bool _ => str "<bool Value>"
  | .cryptoValue _ _ => str "<*crypto.CryptoValue Value>"
  | .column _ _ => str "<clause.Column Value>"

/-- The field values of one struct instance, by Go field name. -/
abbrev Entity := GoString → Value

/-- Assignment to one field of a struct instance. -/
def Entity.set (e : Entity) (name : GoString) (v : Value) : Entity :=
  fun n => if n = name then v else e n

/-- Go `reflect.Value.SetString` on the field `name` of an addressable struct: it
panics unless the field is of kind String. -/
def reflectSetString (e : Entity) (name : GoString) (data : GoString) : Go Entity :=
  match e name with
  | .str _ => .ok (e.set name (.str data))
  | _ => .error Panic.reflectKind

/-- Go `field.ValueOf(ctx, value)` of gorm on the struct behind `value`: the field's
value and whether it is the zero value. -/
def Field.ValueOf (f : Field) (e : Entity) : Value × Bool :=
  (e f.Name, isZero (e f.Name))

/-- Go `field.Set(ctx, value, data)` of gorm with a string `data`. A field of kind
String is assigned; for the other kinds gorm has to parse the text into the
field's type, which is modelled as the error result (`none`). -/
def Field.Set (f : Field) (e : Entity) (data : GoString) : Option Entity :=
  if f.FieldType = Kind.String then some (e.set f.Name (.str data)) else none

/-- A `reflect.Type`. -/
inductive RType where
  /-- a struct type with its fields in declaration order -/
  | Struct (fields : List Field)
  | Ptr (elem : RType)
  | Slice (elem : RType)
  /-- Go `map[string]interface{}` -/
  | Map
  /-- a type of a kind that has no element type (numbers, strings, booleans) -/
  | Basic

/-- A Go value as `reflect` sees it (`db.Statement.Dest`,
`db.Statement.ReflectValue`). Pointers are non-nil. -/
inductive RVal where
  | Struct (fields : List Field) (e : Entity)
  | Ptr (v : RVal)
  | Slice (elem : RType) (vs : List RVal)
  /-- a `map[string]interface{}`, its entries in iteration order -/
  | Map (m : List (GoString × Value))
  | Basic (v : Value)

/-- Go `reflect.TypeOf`. -/
def RVal.typeOf : RVal → RType
  | .Struct fields _ => .Struct fields
  | .Ptr v => .Ptr v.typeOf
  | .Slice elem _ => .Slice elem
  | .Map _ => .Map
  | .Basic _ => .Basic

/-- Go `reflect.Value.Elem()`: defined on pointers, panics on the other kinds. -/
def RVal.Elem : RVal → Go RVal
  | .Ptr v => .ok v
  | _ => .error Panic.reflectKind

/-- Replace the struct at the end of a chain of pointers: the effect, seen from
the original value, of writing fields through `reflect`. -/
def RVal.setStruct : RVal → Entity → RVal
  | .Struct fields _, e => .Struct fields e
  | .Ptr v, e => .Ptr (v.setStruct e)
  | v, _ => v

/-! ## gorm_crypto.go: registry and schema field cache -/

/-- The variable `cryptoStrategies map[string]strategy.CryptoStrategy`; `none` is
the nil map it holds until `Initialize` runs. -/
abbrev Registry := Option (GoString → Option CryptoStrategy)

/-- The statement `cryptoStrategies = make(...)` of `Initialize`. -/
def Initialize : Registry := some (fun _ => none)

/-- Go `RegisterCryptoStrategy(cryptoStrategy)` for a non-nil strategy. -/
def RegisterCryptoStrategy (x : Ext) (cryptoStrategies : Registry)
    (cryptoStrategy : CryptoStrategy) : Go Registry :=
  match cryptoStrategies with
  | none => .error Panic.nilMapWrite
  | some m =>
    .ok (some (fun k => if k = x.ToUpper cryptoStrategy.Name then some cryptoStrategy else m k))

/-- Go `GetCryptoStrategy(cryptoType)`; `none` is the nil interface. -/
def GetCryptoStrategy (x : Ext) (cryptoStrategies : Registry) (cryptoType : GoString) :
    Option CryptoStrategy :=
  match cryptoStrategies with
  | none => none
  | some m => m (x.ToUpper cryptoType)

/-- The struct `CryptoField`; `Strategy` may be the nil interface. -/
structure CryptoField where
  Field : Field
  CryptoType : GoString
  Strategy : Option CryptoStrategy

/-- The variable `cryptoFieldsMap`, keyed by `schema.String()`. -/
abbrev Cache := GoString → Option (List CryptoField)

/-- Go `cryptoFieldsMap.Set(key, fields)`. -/
def Cache.set (c : Cache) (key : GoString) (fields : List CryptoField) : Cache :=
  fun k => if k = key then some fields else c k

/-- What the code reads of a `*schema.Schema`: the result of `schema.String()`
and the values of the map `FieldsByName` in the order the `range` loop visits
them. -/
structure Schema where
  schemaName : GoString
  FieldsByName : List Field

/-- Go `schema.LookUpField(name)` of gorm: the field with that column name, else the
field with that Go name, else nil. -/
def Schema.LookUpField (s : Schema) (name : GoString) : Option Field :=
  match s.FieldsByName.find? (fun f => decide (f.DBName ≠ [] ∧ f.DBName = name)) with
  | some f => some f
  | none => s.FieldsByName.find? (fun f => decide (f.Name = name))

/-- The loop `for k := range fieldNames` of `getSchemaCryptoFields`, with the
slice `fields` built so far. -/
def getSchemaCryptoFields.scan (x : Ext) (reg : Registry) :
    List Field → List CryptoField → List CryptoField
  | [], fields => fields
  | v :: rest, fields =>
    match v.Tag with
    | some ct =>
      if v.FieldType ≠ Kind.String then
        getSchemaCryptoFields.scan x reg rest fields
      else
        let fieldStrategy := GetCryptoStrategy x reg ct
        getSchemaCryptoFields.scan x reg rest
          (fields ++ [{ Field := v, CryptoType := ct, Strategy := fieldStrategy }])
    | none => getSchemaCryptoFields.scan x reg rest fields

/-- Go `getSchemaCryptoFields(schema)`: the returned slice and the cache afterwards. -/
def getSchemaCryptoFields (x : Ext) (reg : Registry) (cache : Cache) (schema : Option Schema) :
    List CryptoField × Cache :=
  match schema with
  | none => ([], cache)
  | some sc =>
    match cache sc.schemaName with
    | some fields => (fields, cache)
    | none =>
      let fields := getSchemaCryptoFields.scan x reg sc.FieldsByName []
      (fields, cache.set sc.schemaName fields)

/-- Go `findCryptField(fieldName, fields)`. -/
def findCryptField (fieldName : GoString) (fields : List CryptoField) : Option CryptoField :=
  if fieldName = [] then none
  else fields.find? (fun f => decide (f.Field.DBName = fieldName))

/-- Go `findCryptFieldWithClauseColumn(column, fields)`. -/
def findCryptFieldWithClauseColumn (column : Value) (fields : List CryptoField) :
    Option CryptoField :=
  match column with
  | .str c => findCryptField c fields
  | .column _ name => findCryptField name fields
  | _ => none

/-- The call `cf.Strategy.Encrypt(src, cf.Field, db)`: a nil `Strategy` panics. -/
def CryptoField.callEncrypt (cf : CryptoField) (src : GoString) : Go GoString :=
  match cf.Strategy with
  | none => .error Panic.nilDeref
  | some s => .ok (s.Encrypt src (some cf.Field))

/-- The call `fieldStrategy.Decrypt(src, field, db)`: a nil `Strategy` panics. -/
def CryptoField.callDecrypt (cf : CryptoField) (src : GoString) : Go GoString :=
  match cf.Strategy with
  | none => .error Panic.nilDeref
  | some s => .ok (s.Decrypt src (some cf.Field))

/-! ## gorm_crypto.go: the four interceptors -/

/-- The loop of `encryptFields` on the struct behind `reflectValue`. -/
def encryptFields.loop : List CryptoField → Entity → Go Entity
  | [], e => .ok e
  | cf :: rest, e =>
    let (actualValue, isZero) := cf.Field.ValueOf e
    if !isZero then
      match cf.callEncrypt (castToString actualValue) with
      | .error p => .error p
      | .ok encryptionValue =>
        match cf.Field.Set e encryptionValue with
        | none => .error Panic.setError
        | some e1 => encryptFields.loop rest e1
    else encryptFields.loop rest e

/-- Go `encryptFields(reflectValue, fields, db)`. gorm reaches the struct through
`reflect.Indirect`, so `reflectValue` is a struct or a pointer to one; on anything
else the first field access panics. -/
def encryptFields (reflectValue : RVal) (fields : List CryptoField) : Go RVal :=
  match reflectValue with
  | .Struct t e => (encryptFields.loop fields e).map (RVal.Struct t)
  | .Ptr (.Struct t e) => (encryptFields.loop fields e).map (fun e1 => RVal.Ptr (RVal.Struct t e1))
  | v => if fields.length = 0 then .ok v else .error Panic.reflectKind

/-- Go `EncryptParamBeforeCreate(db)` on `db.Statement.Schema` and
`db.Statement.ReflectValue`: the cache and the value afterwards. -/
def EncryptParamBeforeCreate (x : Ext) (reg : Registry) (cache : Cache)
    (schema : Option Schema) (reflectValue : RVal) : Go (Cache × RVal) :=
  let (fields, cache1) := getSchemaCryptoFields x reg cache schema
  if fields.length = 0 then .ok (cache1, reflectValue)
  else
    match reflectValue with
    | .Slice t vs =>
      match vs.mapM (fun sliceV => encryptFields sliceV fields) with
      | .error p => .error p
      | .ok vs1 => .ok (cache1, RVal.Slice t vs1)
    | .Struct t e =>
      match encryptFields (RVal.Struct t e) fields with
      | .error p => .error p
      | .ok v1 => .ok (cache1, v1)
    | v => .ok (cache1, v)

/-- The loop of `decryptFields` on the struct `src`. -/
def decryptFields : List CryptoField → Entity → Go Entity
  | [], src => .ok src
  | cf :: rest, src =>
    let encryptValue := reflectString (src cf.Field.Name)
    if encryptValue.length > 0 then
      match cf.callDecrypt encryptValue with
      | .error p => .error p
      | .ok actualValue =>
        match reflectSetString src cf.Field.Name actualValue with
        | .error p => .error p
        | .ok src1 => decryptFields rest src1
    else decryptFields rest src

/-- The body of the loop over the slice in `DecryptResultAfterQuery`. -/
def DecryptResultAfterQuery.elem (fields : List CryptoField) (curVal : RVal) : Go RVal :=
  match curVal with
  | .Ptr (.Struct t e) => (decryptFields fields e).map (fun e1 => RVal.Ptr (RVal.Struct t e1))
  | .Struct t e => (decryptFields fields e).map (RVal.Struct t)
  | v => .ok v

/-- Go `DecryptResultAfterQuery(db)` on `db.Statement.Schema` and `db.Statement.Dest`. -/
def DecryptResultAfterQuery (x : Ext) (reg : Registry) (cache : Cache)
    (schema : Option Schema) (dest : RVal) : Go (Cache × RVal) :=
  let (fields, cache1) := getSchemaCryptoFields x reg cache schema
  if fields.length = 0 then .ok (cache1, dest)
  else
    match dest.Elem with
    | .error p => .error p
    | .ok refVal =>
      match refVal with
      | .Struct t e =>
        match decryptFields fields e with
        | .error p => .error p
        | .ok e1 => .ok (cache1, RVal.Ptr (RVal.Struct t e1))
      | .Slice t vs =>
        match vs.mapM (DecryptResultAfterQuery.elem fields) with
        | .error p => .error p
        | .ok vs1 => .ok (cache1, RVal.Ptr (RVal.Slice t vs1))
      | _ => .ok (cache1, dest)

/-- A `clause.Expression` of the WHERE clause. -/
inductive Expression where
  /-- Go `clause.Eq` -/
  | Eq (column : Value) (value : Value)
  /-- Go `clause.IN` -/
  | IN (column : Value) (values : List Value)
  /-- Go `clause.Expr` with its `SQL` and `Vars` (a nil `Vars` is the empty list) -/
  | Expr (sql : GoString) (vars : List Value)
  /-- Go `clause.AndConditions` with its `Exprs` -/
  | AndConditions (exprs : List Expression)
  /-- Go `clause.OrConditions` with its `Exprs`, as built by `db.Or(...)` -/
  | OrConditions (exprs : List Expression)
  /-- Go `clause.NotConditions` with its `Exprs`, as built by `db.Not(...)` -/
  | NotConditions (exprs : List Expression)
  /-- any other expression type, told apart by `tag` -/
  | Other (tag : Nat)

/-- The body of the loop of `encryptValues`. -/
def encryptValues.elem (cf : CryptoField) (v : Value) : Go Value :=
  match v with
  | .str s => (cf.callEncrypt s).map Value.str
  | v => .ok v

/-- Go `encryptValues(values, cf, db)`. -/
def encryptValues (values : List Value) (cf : CryptoField) : Go (List Value) :=
  values.mapM (encryptValues.elem cf)

/-- The body of the loop over `expr.Vars` in `EncryptParamBeforeQuery`. -/
def EncryptParamBeforeQuery.var (fields : List CryptoField) (v : Value) : Go Value :=
  match v with
  | .cryptoValue column value =>
    match findCryptFieldWithClauseColumn (Value.str column) fields with
    | some cf => (cf.callEncrypt value).map Value.str
    | none => .ok (Value.cryptoValue column value)
  | v => .ok v

/-- The body of the loop over `exprs` in `EncryptParamBeforeQuery`: the value of
`exprs[i]` afterwards. -/
def EncryptParamBeforeQuery.expr (fields : List CryptoField) (expr : Expression) :
    Go Expression :=
  match expr with
  | .Eq column value =>
    match findCryptFieldWithClauseColumn column fields with
    | some cf =>
      match value with
      | .str s => (cf.callEncrypt s).map (fun c => Expression.Eq column (Value.str c))
      | _ => .error Panic.typeAssertion
    | none => .ok (Expression.Eq column value)
  | .IN column values =>
    match findCryptFieldWithClauseColumn column fields with
    | some cf => (encryptValues values cf).map (Expression.IN column)
    | none => .ok (Expression.IN column values)
  | .Expr sql vars =>
    (vars.mapM (EncryptParamBeforeQuery.var fields)).map (Expression.Expr sql)
  | e => .ok e

/-- Go `EncryptParamBeforeQuery(db)` on `db.Statement.Schema` and the expression list
of `db.Statement.Clauses["WHERE"]` (`none` when the clause has no expression). -/
def EncryptParamBeforeQuery (x : Ext) (reg : Registry) (cache : Cache)
    (schema : Option Schema) (we : Option (List Expression)) :
    Go (Cache × Option (List Expression)) :=
  let (fields, cache1) := getSchemaCryptoFields x reg cache schema
  if fields.length = 0 then .ok (cache1, we)
  else
    match we with
    | some exprs =>
      match exprs.mapM (EncryptParamBeforeQuery.expr fields) with
      | .error p => .error p
      | .ok exprs1 => .ok (cache1, some exprs1)
    | none => .ok (cache1, none)

/-- Go `map[string]interface{}` read `m[k]`. -/
def mapGet (m : List (GoString × Value)) (k : GoString) : Value :=
  match m.find? (fun p => decide (p.1 = k)) with
  | some p => p.2
  | none => Value.nil

/-- Go `map[string]interface{}` write `m[k] = v` to a key that is present. -/
def mapSet (m : List (GoString × Value)) (k : GoString) (v : Value) : List (GoString × Value) :=
  m.map (fun p => if p.1 = k then (p.1, v) else p)

/-- The loop `for updateColumn := range updateInfo` of `EncryptParamBeforeUpdate`,
over the keys still to visit. -/
def EncryptParamBeforeUpdate.mapLoop (x : Ext) (reg : Registry) (schema : Option Schema) :
    List GoString → List (GoString × Value) → Go (List (GoString × Value))
  | [], updateInfo => .ok updateInfo
  | updateColumn :: rest, updateInfo =>
    let updateV := mapGet updateInfo updateColumn
    match schema with
    | none => .error Panic.nilDeref
    | some sc =>
      match sc.LookUpField updateColumn with
      | none => .error Panic.nilDeref
      | some updateField =>
        match updateField.Tag with
        | some ct =>
          match GetCryptoStrategy x reg ct with
          | none => .error Panic.nilDeref
          | some fieldStrategy =>
            let encryptionValue := fieldStrategy.Encrypt (castToString updateV) (some updateField)
            EncryptParamBeforeUpdate.mapLoop x reg schema rest
              (mapSet updateInfo updateColumn (Value.str encryptionValue))
        | none => EncryptParamBeforeUpdate.mapLoop x reg schema rest updateInfo

/-- Go `reflect.Type.Elem()` is defined for pointers, slices and maps and panics for
the other kinds; this is the loop of `getReflectElem` on `destType` and
`destValue`. The result `none` is the nil type. -/
def getReflectElem.loop : RType → RVal → Go (Option RType × Option RVal)
  | .Struct _, _ => .error Panic.reflectKind
  | .Basic, _ => .error Panic.reflectKind
  | .Map, _ => .ok (none, none)
  | .Ptr el, destValue =>
    match el with
    | .Ptr _ =>
      match destValue.Elem with
      | .error p => .error p
      | .ok v => getReflectElem.loop el v
    | .Struct _ =>
      match destValue.Elem with
      | .error p => .error p
      | .ok v => .ok (some el, some v)
    | _ => .ok (none, none)
  | .Slice el, destValue =>
    match el with
    | .Ptr _ =>
      match destValue.Elem with
      | .error p => .error p
      | .ok v => getReflectElem.loop el v
    | .Struct _ =>
      match destValue.Elem with
      | .error p => .error p
      | .ok v => .ok (some el, some v)
    | _ => .ok (none, none)

/-- Go `getReflectElem(i)`. -/
def getReflectElem (i : RVal) : Go (Option RType × Option RVal) :=
  getReflectElem.loop i.typeOf i

/-- The loop `for i := 0; i < destType.NumField(); i++` of
`EncryptParamBeforeUpdate` on the struct `destValue`. -/
def EncryptParamBeforeUpdate.structLoop (x : Ext) (reg : Registry) (schema : Option Schema) :
    List Field → Entity → Go Entity
  | [], destValue => .ok destValue
  | field :: rest, destValue =>
    match field.Tag with
    | some ct =>
      let val := reflectString (destValue field.Name)
      if val.length = 0 then EncryptParamBeforeUpdate.structLoop x reg schema rest destValue
      else
        let fieldStrategy := GetCryptoStrategy x reg ct
        match schema with
        | none => .error Panic.nilDeref
        | some sc =>
          let dbField := sc.LookUpField field.Name
          match fieldStrategy with
          | none => .error Panic.nilDeref
          | some st =>
            let encryptionValue := st.Encrypt (castToString (Value.str val)) dbField
            match reflectSetString destValue field.Name encryptionValue with
            | .error p => .error p
            | .ok v1 => EncryptParamBeforeUpdate.structLoop x reg schema rest v1
    | none => EncryptParamBeforeUpdate.structLoop x reg schema rest destValue

/-- Go `EncryptParamBeforeUpdate(db)` on `db.Statement.Schema` and
`db.Statement.Dest`: the value of `Dest` afterwards. -/
def EncryptParamBeforeUpdate (x : Ext) (reg : Registry) (schema : Option Schema)
    (dest : RVal) : Go RVal :=
  match dest with
  | .Map updateInfo =>
    (EncryptParamBeforeUpdate.mapLoop x reg schema (updateInfo.map Prod.fst) updateInfo).map
      RVal.Map
  | _ =>
    match getReflectElem dest with
    | .error p => .error p
    | .ok (some (.Struct fields), some (.Struct _ e)) =>
      (EncryptParamBeforeUpdate.structLoop x reg schema fields e).map dest.setStruct
    | .ok _ => .ok dest

/-! ## The data of the repository's test -/

/-- The key of `gorm_crypto_test.go`. -/
def testKey : GoString := str "1234567890123456"

/-- The fields of the struct `User` of `gorm_crypto_test.go`. -/
def userFields : List Field :=
  [ { Name := str "ID", DBName := str "id", Tag := none, FieldType := Kind.Int },
    { Name := str "Name", DBName := str "name", Tag := none, FieldType := Kind.String },
    { Name := str "Age", DBName := str "age", Tag := none, FieldType := Kind.Int },
    { Name := str "Email", DBName := str "email", Tag := some (str "aes"),
      FieldType := Kind.String },
    { Name := str "Mobile", DBName := str "mobile", Tag := some (str "aes"),
      FieldType := Kind.String } ]

/-- The schema gorm parses from `User`. -/
def userSchema : Schema := { schemaName := str "crypto.User", FieldsByName := userFields }

/-- A `User` value with the given `Email`, the other fields zero. -/
def userWithEmail (email : GoString) : Entity := fun n =>
  if n = str "Email" then Value.str email
  else if n = str "Name" ∨ n = str "Mobile" then Value.str []
  else Value.int 0

/-- The registry after `Initialize` and
`RegisterCryptoStrategy(NewAesCryptoStrategy("1234567890123456"))`. -/
def testRegistry : Registry :=
  match RegisterCryptoStrategy Ext.sample Initialize (NewAesCryptoStrategy Ext.sample testKey) with
  | .ok reg => reg
  | .error _ => none

/-- The cache before the first statement. -/
def emptyCache : Cache := fun _ => none

/-- Registration of a list of strategies, one call after the other. -/
def registerAll (x : Ext) : Registry → List CryptoStrategy → Go Registry
  | reg, [] => .ok reg
  | reg, s :: rest =>
    match RegisterCryptoStrategy x reg s with
    | .error p => .error p
    | .ok reg1 => registerAll x reg1 rest

/-! ## Closed forms of the loops over a struct instance, used to state and prove their effect -/

/-- The descriptor in `fields` for the Go field name `n`, if there is one. -/
def descriptorOf (fields : List CryptoField) (n : GoString) : Option CryptoField :=
  fields.find? (fun cf => decide (cf.Field.Name = n))

/-- Field by field, the struct instance in which every field with a descriptor
and a non-zero value holds the AES encryption of its string form. -/
def encryptEntity (x : Ext) (key : GoString) (fields : List CryptoField) (e : Entity) : Entity :=
  fun n =>
    match descriptorOf fields n with
    | some cf =>
      if isZero (e n) then e n
      else Value.str (AesCryptoStrategy.Encrypt x key (castToString (e n)) (some cf.Field))
    | none => e n

/-- Field by field, the struct instance in which every field with a descriptor
and a non-empty string holds the AES decryption of that string. -/
def decryptEntity (x : Ext) (key : GoString) (fields : List CryptoField) (e : Entity) : Entity :=
  fun n =>
    match descriptorOf fields n with
    | some cf =>
      if (reflectString (e n)).length > 0 then
        Value.str (AesCryptoStrategy.Decrypt x key (reflectString (e n)) (some cf.Field))
      else e n
    | none => e n

/-- Apply `f` to the struct instance held by `v` directly or through one pointer. -/
def RVal.mapStruct (f : Entity → Entity) : RVal → RVal
  | .Struct t e => .Struct t (f e)
  | .Ptr (.Struct t e) => .Ptr (.Struct t (f e))
  | v => v

/-- The relation between a struct instance `e` and the instance `e1` that
before-create leaves in its place, for the descriptors `fields` and the AES
strategy with key `key`. -/
def Encrypted (x : Ext) (key : GoString) (fields : List CryptoField) (e e1 : Entity) : Prop :=
  (∀ cf ∈ fields, isZero (e cf.Field.Name) = false →
    e1 cf.Field.Name = Value.str
      ((NewAesCryptoStrategy x key).Encrypt (castToString (e cf.Field.Name)) (some cf.Field))) ∧
  (∀ cf ∈ fields, ∀ s, e cf.Field.Name = Value.str s → s ≠ [] →
    ∃ c, e1 cf.Field.Name = Value.str c ∧ HasPrefix c aesMarker = true ∧
      (NewAesCryptoStrategy x key).Decrypt c (some cf.Field) = s) ∧
  (∀ cf ∈ fields, isZero (e cf.Field.Name) = true → e1 cf.Field.Name = e cf.Field.Name) ∧
  (∀ n, (∀ cf ∈ fields, cf.Field.Name ≠ n) → e1 n = e n)

/-- Two values hold struct instances related by `R` in the same way: both
directly, or both through a pointer. -/
def HeldAlike (R : Entity → Entity → Prop) (v v1 : RVal) : Prop :=
  (∃ t e e1, v = RVal.Struct t e ∧ v1 = RVal.Struct t e1 ∧ R e e1) ∨
  (∃ t e e1, v = RVal.Ptr (RVal.Struct t e) ∧ v1 = RVal.Ptr (RVal.Struct t e1) ∧ R e e1)

/-- The descriptors of `User` under `testRegistry`. -/
def userCryptoFields : List CryptoField :=
  [ { Field := { Name := str "Email", DBName := str "email", Tag := some (str "aes"),
                 FieldType := Kind.String },
      CryptoType := str "aes",
      Strategy := some (NewAesCryptoStrategy Ext.sample testKey) },
    { Field := { Name := str "Mobile", DBName := str "mobile", Tag := some (str "aes"),
                 FieldType := Kind.String },
      CryptoType := str "aes",
      Strategy := some (NewAesCryptoStrategy Ext.sample testKey) } ]

/-- The slice `[]*User{user2, user3}` of the test, with the e-mail addresses set. -/
def testUsers : List RVal :=
  [ RVal.Ptr (RVal.Struct userFields (userWithEmail (str "user2@example.com"))),
    RVal.Ptr (RVal.Struct userFields (userWithEmail (str "user3@example.com"))) ]

/-! ## Closed forms of the loops of before-query, used in the proofs -/

/-- The value that the loop over `expr.Vars` leaves at the position of `v`, when
the strategy of the descriptor it finds is not nil. -/
def EncryptParamBeforeQuery.varResult (fields : List CryptoField) (v : Value) : Value :=
  match v with
  | .cryptoValue column value =>
    match findCryptField column fields with
    | some cf =>
      match cf.Strategy with
      | some st => Value.str (st.Encrypt value (some cf.Field))
      | none => v
    | none => v
  | v => v

/-- The value that `encryptValues` leaves at the position of `v`, when the
strategy of `cf` is not nil. -/
def encryptValues.elemResult (cf : CryptoField) (v : Value) : Value :=
  match v, cf.Strategy with
  | .str s, some st => Value.str (st.Encrypt s (some cf.Field))
  | v, _ => v

/-- The expression that the loop over `exprs` leaves at the position of `expr`,
when no strategy is nil and the literal of an equality on an encryptable column
is a string. -/
def EncryptParamBeforeQuery.exprResult (fields : List CryptoField) (expr : Expression) :
    Expression :=
  match expr with
  | .Eq column value =>
    match findCryptFieldWithClauseColumn column fields, value with
    | some cf, .str s => Expression.Eq column (encryptValues.elemResult cf (Value.str s))
    | _, _ => expr
  | .IN column values =>
    match findCryptFieldWithClauseColumn column fields with
    | some cf => Expression.IN column (values.map (encryptValues.elemResult cf))
    | none => expr
  | .Expr sql vars => Expression.Expr sql (vars.map (EncryptParamBeforeQuery.varResult fields))
  | e => e

/-- The WHERE list of `db.Where("email = ?", NewCryptoValue("email", "user1@example.com"))`
followed by one with a bare string literal. -/
def testRawWhere : List Expression :=
  [ Expression.Expr (str "email = ?") [NewCryptoValue (str "email") (str "user1@example.com")],
    Expression.Expr (str "name = ?") [Value.str (str "User1")] ]

/-- The WHERE list of
`db.Where("name = ?", "User1").Or("email = ?", NewCryptoValue("email", "user1@example.com"))`:
gorm wraps the second raw expression in a `clause.OrConditions`. -/
def testNestedWhere : List Expression :=
  [ Expression.Expr (str "name = ?") [Value.str (str "User1")],
    Expression.OrConditions
      [Expression.Expr (str "email = ?")
        [NewCryptoValue (str "email") (str "user1@example.com")]] ]

/-! ## Basic facts about the AES strategy -/

theorem aesMarker_eq : aesMarker = [123, 65, 69, 83, 125] := by decide

theorem HasPrefix_marker_append (t : GoString) : HasPrefix (aesMarker ++ t) aesMarker = true := by
  simp [HasPrefix, aesMarker_eq]

theorem drop_marker_append (t : GoString) : (aesMarker ++ t).drop 5 = t := by
  simp [aesMarker_eq]

theorem Ext.sample_inverse (key : GoString) : Ext.sample.Inverse key := by
  constructor
  · intro d
    simp [Ext.sample]
  · intro b
    simp [Ext.sample]

theorem DecryptValue_EncryptValue (x : Ext) (key : GoString) (hx : x.Inverse key)
    (v : GoString) : DecryptValue x (EncryptValue x v key) key = v := by
  unfold DecryptValue EncryptValue
  rw [HasPrefix_marker_append]
  simp only [if_true, drop_marker_append]
  rw [hx.2, hx.1]

theorem EncryptValue_ne_nil (x : Ext) (v key : GoString) : EncryptValue x v key ≠ [] := by
  simp [EncryptValue, aesMarker_eq]

theorem aes_roundtrip (x : Ext) (key : GoString) (hx : x.Inverse key) (v : GoString)
    (fe fd : Option Field) :
    AesCryptoStrategy.Decrypt x key (AesCryptoStrategy.Encrypt x key v fe) fd = v := by
  unfold AesCryptoStrategy.Decrypt AesCryptoStrategy.Encrypt
  by_cases hv : v.length = 0
  · have : v = [] := List.length_eq_zero.mp hv
    subst this
    simp
  · rw [if_neg hv]
    have hne : (EncryptValue x v key).length ≠ 0 := by
      intro h
      exact EncryptValue_ne_nil x v key (List.length_eq_zero.mp h)
    rw [if_neg hne]
    exact DecryptValue_EncryptValue x key hx v

/-! ## The AES strategy -/

/-- C1: for a key on which the cipher pair and the base64 pair are inverses,
`Decrypt(Encrypt(v)) = v` for every string `v`, and the empty string is mapped to
the empty string by both `Encrypt` and `Decrypt`. -/
theorem C1_aes_round_trip (x : Ext) (key : GoString) (hx : x.Inverse key) (v : GoString)
    (fe fd : Option Field) :
    (NewAesCryptoStrategy x key).Decrypt ((NewAesCryptoStrategy x key).Encrypt v fe) fd = v ∧
    (NewAesCryptoStrategy x key).Encrypt [] fe = [] ∧
    (NewAesCryptoStrategy x key).Decrypt [] fd = [] := by
  refine ⟨aes_roundtrip x key hx v fe fd, ?_, ?_⟩
  · simp [NewAesCryptoStrategy, AesCryptoStrategy.Encrypt]
  · simp [NewAesCryptoStrategy, AesCryptoStrategy.Decrypt]

theorem C1_aes_round_trip_witness :
    (NewAesCryptoStrategy Ext.sample testKey).Decrypt
        ((NewAesCryptoStrategy Ext.sample testKey).Encrypt (str "user1@example.com") none) none
      = str "user1@example.com" ∧
    (NewAesCryptoStrategy Ext.sample testKey).Encrypt [] none = [] ∧
    (NewAesCryptoStrategy Ext.sample testKey).Decrypt [] none = [] :=
  C1_aes_round_trip Ext.sample testKey (Ext.sample_inverse testKey) (str "user1@example.com")
    none none

/-- C8: a string that does not start with the marker `"{AES}"`, the empty string
included, is returned unchanged by `Decrypt`, for every key and every cipher. -/
theorem C8_marker_discrimination (x : Ext) (key v : GoString) (fd : Option Field)
    (h : HasPrefix v aesMarker = false) :
    (NewAesCryptoStrategy x key).Decrypt v fd = v := by
  show AesCryptoStrategy.Decrypt x key v fd = v
  unfold AesCryptoStrategy.Decrypt
  by_cases hv : v.length = 0
  · rw [if_pos hv]
    exact (List.length_eq_zero.mp hv).symm
  · rw [if_neg hv]
    unfold DecryptValue
    simp [h]

theorem C8_marker_discrimination_witness :
    (NewAesCryptoStrategy Ext.sample testKey).Decrypt (str "user1@example.com") none
      = str "user1@example.com" :=
  C8_marker_discrimination Ext.sample testKey (str "user1@example.com") none (by decide)

/-! ## The registry -/

theorem registerAll_initialized (x : Ext) (ss : List CryptoStrategy) :
    ∀ m : GoString → Option CryptoStrategy, ∃ m1, registerAll x (some m) ss = .ok (some m1) ∧
      ∀ n, (∀ s ∈ ss, x.ToUpper s.Name ≠ x.ToUpper n) →
        GetCryptoStrategy x (some m1) n = GetCryptoStrategy x (some m) n := by
  induction ss with
  | nil =>
    intro m
    exact ⟨m, rfl, fun _ _ => rfl⟩
  | cons s rest ih =>
    intro m
    obtain ⟨m1, h1, h2⟩ :=
      ih (fun k => if k = x.ToUpper s.Name then some s else m k)
    refine ⟨m1, ?_, ?_⟩
    · simpa [registerAll, RegisterCryptoStrategy] using h1
    · intro n hn
      rw [h2 n (fun t ht => hn t (List.mem_cons_of_mem _ ht))]
      have hne : x.ToUpper n ≠ x.ToUpper s.Name :=
        fun h => hn s (List.mem_cons_self _ _) h.symm
      simp [GetCryptoStrategy, hne]

/-- C9: on the initialised registry `register(s)` returns, and afterwards
(1) `lookup(n)` is `s` for every `n` whose upper-case form is that of `s.Name()`,
(2) lookups of names with another upper-case form are as before,
(3) registering `s2` under the same upper-case name makes those lookups return `s2`,
and (4) after `Initialize` and any sequence of registrations, a name whose
upper-case form was never registered is looked up as nil. -/
theorem C9_registry (x : Ext) (m : GoString → Option CryptoStrategy) (s : CryptoStrategy) :
    ∃ reg1, RegisterCryptoStrategy x (some m) s = .ok reg1 ∧
      (∀ n, x.ToUpper n = x.ToUpper s.Name → GetCryptoStrategy x reg1 n = some s) ∧
      (∀ n, x.ToUpper n ≠ x.ToUpper s.Name →
        GetCryptoStrategy x reg1 n = GetCryptoStrategy x (some m) n) ∧
      (∀ s2 : CryptoStrategy, x.ToUpper s2.Name = x.ToUpper s.Name →
        ∃ reg2, RegisterCryptoStrategy x reg1 s2 = .ok reg2 ∧
          ∀ n, x.ToUpper n = x.ToUpper s.Name → GetCryptoStrategy x reg2 n = some s2) ∧
      (∀ (ss : List CryptoStrategy) (n : GoString),
        (∀ t ∈ ss, x.ToUpper t.Name ≠ x.ToUpper n) →
        ∃ reg3, registerAll x Initialize ss = .ok reg3 ∧ GetCryptoStrategy x reg3 n = none) := by
  refine ⟨_, rfl, ?_, ?_, ?_, ?_⟩
  · intro n hn
    simp [GetCryptoStrategy, hn]
  · intro n hn
    simp [GetCryptoStrategy, hn]
  · intro s2 h2
    refine ⟨_, rfl, ?_⟩
    intro n hn
    simp [GetCryptoStrategy, hn, h2]
  · intro ss n hn
    obtain ⟨m1, h1, h2⟩ := registerAll_initialized x ss (fun _ => none)
    refine ⟨some m1, h1, ?_⟩
    rw [h2 n hn]
    rfl

theorem C9_registry_witness :
    ∃ reg1, RegisterCryptoStrategy Ext.sample Initialize
        (NewAesCryptoStrategy Ext.sample testKey) = .ok reg1 ∧
      GetCryptoStrategy Ext.sample reg1 (str "aes") = some (NewAesCryptoStrategy Ext.sample testKey) ∧
      GetCryptoStrategy Ext.sample reg1 (str "des") = none := by
  obtain ⟨reg1, h1, h2, h3, _, _⟩ :=
    C9_registry Ext.sample (fun _ => none) (NewAesCryptoStrategy Ext.sample testKey)
  refine ⟨reg1, h1, h2 (str "aes") (by decide), ?_⟩
  rw [h3 (str "des") (by decide)]
  rfl

/-! ## The schema field cache -/

theorem scan_eq (x : Ext) (reg : Registry) (l : List Field) :
    ∀ acc : List CryptoField, getSchemaCryptoFields.scan x reg l acc =
      acc ++ l.filterMap (fun v => match v.Tag with
        | some ct =>
          if v.FieldType = Kind.String then
            some { Field := v, CryptoType := ct, Strategy := GetCryptoStrategy x reg ct }
          else none
        | none => none) := by
  induction l with
  | nil => intro acc; simp [getSchemaCryptoFields.scan]
  | cons v rest ih =>
    intro acc
    unfold getSchemaCryptoFields.scan
    cases hT : v.Tag with
    | none => simp [ih, List.filterMap_cons, hT]
    | some ct =>
      by_cases hk : v.FieldType = Kind.String
      · simp [ih, List.filterMap_cons, hT, hk]
      · simp [ih, List.filterMap_cons, hT, hk]

theorem scan_mem (x : Ext) (reg : Registry) (l : List Field) (cf : CryptoField)
    (h : cf ∈ getSchemaCryptoFields.scan x reg l []) :
    cf.Field ∈ l ∧ cf.Field.FieldType = Kind.String ∧ cf.Field.Tag = some cf.CryptoType ∧
      cf.Strategy = GetCryptoStrategy x reg cf.CryptoType := by
  rw [scan_eq] at h
  simp only [List.nil_append, List.mem_filterMap] at h
  obtain ⟨v, hv, hcf⟩ := h
  cases hT : v.Tag with
  | none => simp [hT] at hcf
  | some ct =>
    by_cases hk : v.FieldType = Kind.String
    · simp [hT, hk] at hcf
      subst hcf
      exact ⟨hv, hk, hT, rfl⟩
    · simp [hT, hk] at hcf

theorem scan_map_field (x : Ext) (reg : Registry) (l : List Field) :
    (getSchemaCryptoFields.scan x reg l []).map CryptoField.Field =
      l.filter (fun f => f.Tag.isSome && decide (f.FieldType = Kind.String)) := by
  rw [scan_eq]
  simp only [List.nil_append]
  induction l with
  | nil => rfl
  | cons v rest ih =>
    cases hT : v.Tag with
    | none => simp [List.filterMap_cons, List.filter_cons, hT, ih]
    | some ct =>
      by_cases hk : v.FieldType = Kind.String
      · simp [List.filterMap_cons, List.filter_cons, hT, hk, ih]
      · simp [List.filterMap_cons, List.filter_cons, hT, hk, ih]

theorem getSchemaCryptoFields_fresh (x : Ext) (reg : Registry) (cache : Cache) (sc : Schema)
    (hfresh : cache sc.schemaName = none)
    (hnames : (sc.FieldsByName.map (fun f => f.Name)).Nodup) :
    ((getSchemaCryptoFields x reg cache (some sc)).1.map (fun c => c.Field.Name)).Nodup ∧
    ∀ cf ∈ (getSchemaCryptoFields x reg cache (some sc)).1,
      cf.Field.FieldType = Kind.String := by
  have hfields : (getSchemaCryptoFields x reg cache (some sc)).1 =
      getSchemaCryptoFields.scan x reg sc.FieldsByName [] := by
    simp [getSchemaCryptoFields, hfresh]
  rw [hfields]
  constructor
  · have hmap : (getSchemaCryptoFields.scan x reg sc.FieldsByName []).map
        (fun c => c.Field.Name) =
        ((getSchemaCryptoFields.scan x reg sc.FieldsByName []).map CryptoField.Field).map
          (fun f => f.Name) := by
      rw [List.map_map]
      rfl
    rw [hmap, scan_map_field]
    exact hnames.sublist ((List.filter_sublist _).map _)
  · intro cf hcf
    exact (scan_mem x reg sc.FieldsByName cf hcf).2.1

/-- C10: for a schema that is not cached yet, the descriptors returned by
`getSchemaCryptoFields` are, one for one and in the order of the scan, the
fields that carry the crypto tag and are of kind String; every descriptor holds
its field's tag value and the registry lookup of that value; the nil schema
gives the empty result. -/
theorem C10_cache_population (x : Ext) (reg : Registry) (cache : Cache) (sc : Schema)
    (hfresh : cache sc.schemaName = none) :
    (getSchemaCryptoFields x reg cache (some sc)).1.map CryptoField.Field =
        sc.FieldsByName.filter (fun f => f.Tag.isSome && decide (f.FieldType = Kind.String)) ∧
    (∀ cf ∈ (getSchemaCryptoFields x reg cache (some sc)).1,
        cf.Field.Tag = some cf.CryptoType ∧
        cf.Strategy = GetCryptoStrategy x reg cf.CryptoType) ∧
    (getSchemaCryptoFields x reg cache none).1 = [] := by
  have hfields : (getSchemaCryptoFields x reg cache (some sc)).1 =
      getSchemaCryptoFields.scan x reg sc.FieldsByName [] := by
    simp [getSchemaCryptoFields, hfresh]
  rw [hfields]
  refine ⟨scan_map_field x reg sc.FieldsByName, ?_, rfl⟩
  intro cf hcf
  have h := scan_mem x reg sc.FieldsByName cf hcf
  exact ⟨h.2.2.1, h.2.2.2⟩

theorem C10_cache_population_witness :
    (getSchemaCryptoFields Ext.sample testRegistry emptyCache (some userSchema)).1.map
        CryptoField.Field =
        userSchema.FieldsByName.filter
          (fun f => f.Tag.isSome && decide (f.FieldType = Kind.String)) ∧
    (∀ cf ∈ (getSchemaCryptoFields Ext.sample testRegistry emptyCache (some userSchema)).1,
        cf.Field.Tag = some cf.CryptoType ∧
        cf.Strategy = GetCryptoStrategy Ext.sample testRegistry cf.CryptoType) ∧
    (getSchemaCryptoFields Ext.sample testRegistry emptyCache none).1 = [] :=
  C10_cache_population Ext.sample testRegistry emptyCache userSchema rfl

/-! ## Before-create and after-query on struct instances -/

theorem mapM_ok {α β : Type} (f : α → Go β) (g : α → β) (l : List α)
    (h : ∀ a ∈ l, f a = .ok (g a)) : l.mapM f = .ok (l.map g) := by
  induction l with
  | nil => rfl
  | cons a rest ih =>
    have h1 := h a (List.mem_cons_self _ _)
    have h2 := ih (fun b hb => h b (List.mem_cons_of_mem _ hb))
    simp only [List.mapM_cons, h1, h2, List.map_cons]
    rfl

theorem descriptorOf_cons_self (cf : CryptoField) (rest : List CryptoField) :
    descriptorOf (cf :: rest) cf.Field.Name = some cf := by
  simp [descriptorOf, List.find?_cons]

theorem descriptorOf_cons_ne (cf : CryptoField) (rest : List CryptoField) (n : GoString)
    (h : n ≠ cf.Field.Name) : descriptorOf (cf :: rest) n = descriptorOf rest n := by
  have h1 : ¬ cf.Field.Name = n := fun h2 => h h2.symm
  simp [descriptorOf, List.find?_cons, h1]

theorem descriptorOf_eq_none (fields : List CryptoField) (n : GoString)
    (h : ∀ cf ∈ fields, cf.Field.Name ≠ n) : descriptorOf fields n = none := by
  simp only [descriptorOf, List.find?_eq_none, decide_eq_true_eq]
  exact h

theorem descriptorOf_mem (fields : List CryptoField) (cf : CryptoField)
    (hnodup : (fields.map (fun c => c.Field.Name)).Nodup) (hcf : cf ∈ fields) :
    descriptorOf fields cf.Field.Name = some cf := by
  induction fields with
  | nil => simp at hcf
  | cons c rest ih =>
    rw [List.map_cons, List.nodup_cons] at hnodup
    rcases List.mem_cons.mp hcf with h | h
    · subst h
      exact descriptorOf_cons_self _ _
    · have hne : cf.Field.Name ≠ c.Field.Name := by
        intro heq
        exact hnodup.1 (heq ▸ List.mem_map_of_mem (fun c => c.Field.Name) h)
      rw [descriptorOf_cons_ne c rest _ hne]
      exact ih hnodup.2 h

theorem encryptEntity_cons (x : Ext) (key : GoString) (cf : CryptoField)
    (rest : List CryptoField) (e : Entity)
    (hfresh : ∀ c ∈ rest, c.Field.Name ≠ cf.Field.Name) :
    encryptEntity x key rest
        (if isZero (e cf.Field.Name) then e
         else e.set cf.Field.Name (Value.str
          (AesCryptoStrategy.Encrypt x key (castToString (e cf.Field.Name)) (some cf.Field))))
      = encryptEntity x key (cf :: rest) e := by
  funext n
  unfold encryptEntity
  by_cases hn : n = cf.Field.Name
  · subst hn
    rw [descriptorOf_cons_self, descriptorOf_eq_none rest _ hfresh]
    by_cases hz : isZero (e cf.Field.Name) = true
    · simp [hz]
    · simp [hz, Entity.set]
  · rw [descriptorOf_cons_ne cf rest n hn]
    by_cases hz : isZero (e cf.Field.Name) = true
    · simp [hz]
    · simp [hz, Entity.set, hn]

theorem encryptFields_loop_eq (x : Ext) (key : GoString) (fields : List CryptoField) :
    (fields.map (fun c => c.Field.Name)).Nodup →
    (∀ cf ∈ fields, cf.Field.FieldType = Kind.String) →
    (∀ cf ∈ fields, cf.Strategy = some (NewAesCryptoStrategy x key)) →
    ∀ e : Entity, encryptFields.loop fields e = .ok (encryptEntity x key fields e) := by
  induction fields with
  | nil =>
    intro _ _ _ e
    rfl
  | cons cf rest ih =>
    intro hnodup hkind haes e
    rw [List.map_cons, List.nodup_cons] at hnodup
    have hfresh : ∀ c ∈ rest, c.Field.Name ≠ cf.Field.Name := by
      intro c hc heq
      exact hnodup.1 (heq ▸ List.mem_map_of_mem (fun c => c.Field.Name) hc)
    have ih1 := ih hnodup.2 (fun c hc => hkind c (List.mem_cons_of_mem _ hc))
      (fun c hc => haes c (List.mem_cons_of_mem _ hc))
    have hk := hkind cf (List.mem_cons_self _ _)
    have hs := haes cf (List.mem_cons_self _ _)
    rw [← encryptEntity_cons x key cf rest e hfresh]
    unfold encryptFields.loop
    by_cases hz : isZero (e cf.Field.Name) = true
    · simp [Field.ValueOf, hz, ih1]
    · simp [Field.ValueOf, hz, ih1, CryptoField.callEncrypt, hs, Field.Set, hk,
        NewAesCryptoStrategy]

theorem decryptEntity_cons (x : Ext) (key : GoString) (cf : CryptoField)
    (rest : List CryptoField) (e : Entity)
    (hfresh : ∀ c ∈ rest, c.Field.Name ≠ cf.Field.Name) :
    decryptEntity x key rest
        (if (reflectString (e cf.Field.Name)).length > 0 then
          e.set cf.Field.Name (Value.str
            (AesCryptoStrategy.Decrypt x key (reflectString (e cf.Field.Name)) (some cf.Field)))
         else e)
      = decryptEntity x key (cf :: rest) e := by
  funext n
  unfold decryptEntity
  by_cases hn : n = cf.Field.Name
  · subst hn
    rw [descriptorOf_cons_self, descriptorOf_eq_none rest _ hfresh]
    by_cases hz : (reflectString (e cf.Field.Name)).length > 0
    · simp only [hz, if_true, Entity.set]
    · simp only [hz, if_false]
  · rw [descriptorOf_cons_ne cf rest n hn]
    by_cases hz : (reflectString (e cf.Field.Name)).length > 0
    · simp only [hz, if_true, Entity.set, if_neg hn]
    · simp only [hz, if_false]

theorem decryptFields_eq (x : Ext) (key : GoString) (fields : List CryptoField) :
    (fields.map (fun c => c.Field.Name)).Nodup →
    (∀ cf ∈ fields, cf.Strategy = some (NewAesCryptoStrategy x key)) →
    ∀ e : Entity, (∀ cf ∈ fields, ∃ s, e cf.Field.Name = Value.str s) →
      decryptFields fields e = .ok (decryptEntity x key fields e) := by
  induction fields with
  | nil =>
    intro _ _ e _
    rfl
  | cons cf rest ih =>
    intro hnodup haes e htyped
    rw [List.map_cons, List.nodup_cons] at hnodup
    have hfresh : ∀ c ∈ rest, c.Field.Name ≠ cf.Field.Name := by
      intro c hc heq
      exact hnodup.1 (heq ▸ List.mem_map_of_mem (fun c => c.Field.Name) hc)
    have ih1 := ih hnodup.2 (fun c hc => haes c (List.mem_cons_of_mem _ hc))
    have hs := haes cf (List.mem_cons_self _ _)
    obtain ⟨s, hstr⟩ := htyped cf (List.mem_cons_self _ _)
    rw [← decryptEntity_cons x key cf rest e hfresh]
    unfold decryptFields
    by_cases hz : (reflectString (e cf.Field.Name)).length > 0
    · have htyped1 : ∀ c ∈ rest, ∃ s1, (e.set cf.Field.Name (Value.str
          (AesCryptoStrategy.Decrypt x key (reflectString (e cf.Field.Name)) (some cf.Field))))
          c.Field.Name = Value.str s1 := by
        intro c hc
        obtain ⟨s1, h1⟩ := htyped c (List.mem_cons_of_mem _ hc)
        exact ⟨s1, by simp [Entity.set, hfresh c hc, h1]⟩
      have hset : ∀ d, reflectSetString e cf.Field.Name d =
          .ok (e.set cf.Field.Name (Value.str d)) := by
        intro d
        simp [reflectSetString, hstr]
      simp only [hz, if_true, CryptoField.callDecrypt, hs, hset]
      exact ih1 _ htyped1
    · simp only [hz, if_false]
      exact ih1 e (fun c hc => htyped c (List.mem_cons_of_mem _ hc))

theorem descriptorOf_some (fields : List CryptoField) (n : GoString) (cf : CryptoField)
    (h : descriptorOf fields n = some cf) : cf ∈ fields ∧ cf.Field.Name = n := by
  unfold descriptorOf at h
  refine ⟨List.mem_of_find?_eq_some h, ?_⟩
  have h1 := List.find?_some h
  simpa using h1

theorem aes_encrypt_marker (x : Ext) (key s : GoString) (f : Option Field) (hs : s ≠ []) :
    HasPrefix (AesCryptoStrategy.Encrypt x key s f) aesMarker = true := by
  have hl : s.length ≠ 0 := fun h => hs (List.length_eq_zero.mp h)
  unfold AesCryptoStrategy.Encrypt
  rw [if_neg hl]
  exact HasPrefix_marker_append _

theorem aes_encrypt_length_pos (x : Ext) (key s : GoString) (f : Option Field) (hs : s ≠ []) :
    (AesCryptoStrategy.Encrypt x key s f).length > 0 := by
  have hl : s.length ≠ 0 := fun h => hs (List.length_eq_zero.mp h)
  unfold AesCryptoStrategy.Encrypt
  rw [if_neg hl]
  exact List.length_pos.mpr (EncryptValue_ne_nil x s key)

theorem encryptEntity_encrypted (x : Ext) (key : GoString) (hx : x.Inverse key)
    (fields : List CryptoField) (hnodup : (fields.map (fun c => c.Field.Name)).Nodup)
    (e : Entity) : Encrypted x key fields e (encryptEntity x key fields e) := by
  refine ⟨?_, ?_, ?_, ?_⟩
  · intro cf hcf hz
    simp [encryptEntity, descriptorOf_mem fields cf hnodup hcf, hz, NewAesCryptoStrategy]
  · intro cf hcf s hs hne
    refine ⟨AesCryptoStrategy.Encrypt x key s (some cf.Field), ?_,
      aes_encrypt_marker x key s _ hne, aes_roundtrip x key hx s (some cf.Field) (some cf.Field)⟩
    simp [encryptEntity, descriptorOf_mem fields cf hnodup hcf, hs, isZero, hne, castToString]
  · intro cf hcf hz
    simp [encryptEntity, descriptorOf_mem fields cf hnodup hcf, hz]
  · intro n hn
    simp [encryptEntity, descriptorOf_eq_none fields n hn]

theorem decryptEntity_encryptEntity (x : Ext) (key : GoString) (hx : x.Inverse key)
    (fields : List CryptoField) (e : Entity)
    (htyped : ∀ cf ∈ fields, ∃ s, e cf.Field.Name = Value.str s) :
    decryptEntity x key fields (encryptEntity x key fields e) = e := by
  funext n
  unfold decryptEntity encryptEntity
  cases hd : descriptorOf fields n with
  | none => rfl
  | some cf =>
    obtain ⟨hmem, hname⟩ := descriptorOf_some fields n cf hd
    obtain ⟨s, hs⟩ := htyped cf hmem
    rw [hname] at hs
    by_cases hne : s = []
    · subst hne
      simp [hs, isZero, reflectString]
    · have hpos := aes_encrypt_length_pos x key s (some cf.Field) hne
      simp only [hs, isZero, hne, decide_False, Bool.false_eq_true, if_false, reflectString,
        castToString, hpos, if_true]
      rw [aes_roundtrip x key hx s _ _]

theorem encryptEntity_typed (x : Ext) (key : GoString) (fields : List CryptoField) (e : Entity)
    (htyped : ∀ cf ∈ fields, ∃ s, e cf.Field.Name = Value.str s) :
    ∀ cf ∈ fields, ∃ s, encryptEntity x key fields e cf.Field.Name = Value.str s := by
  intro cf hcf
  obtain ⟨s, hs⟩ := htyped cf hcf
  unfold encryptEntity
  cases hd : descriptorOf fields cf.Field.Name with
  | none => exact ⟨s, hs⟩
  | some c =>
    by_cases hz : isZero (e cf.Field.Name) = true
    · exact ⟨s, by show (if _ then _ else _) = _; rw [if_pos hz]; exact hs⟩
    · exact ⟨_, by show (if _ then _ else _) = _; rw [if_neg hz]⟩

theorem encryptFields_held (x : Ext) (key : GoString) (fields : List CryptoField)
    (hnodup : (fields.map (fun c => c.Field.Name)).Nodup)
    (hkind : ∀ cf ∈ fields, cf.Field.FieldType = Kind.String)
    (haes : ∀ cf ∈ fields, cf.Strategy = some (NewAesCryptoStrategy x key))
    (v : RVal) (hv : ∃ t e, v = RVal.Struct t e ∨ v = RVal.Ptr (RVal.Struct t e)) :
    encryptFields v fields = .ok (v.mapStruct (encryptEntity x key fields)) := by
  obtain ⟨t, e, h | h⟩ := hv
  · subst h
    simp [encryptFields, encryptFields_loop_eq x key fields hnodup hkind haes e, RVal.mapStruct,
      Except.map]
  · subst h
    simp [encryptFields, encryptFields_loop_eq x key fields hnodup hkind haes e, RVal.mapStruct,
      Except.map]

theorem decryptElem_held (x : Ext) (key : GoString) (fields : List CryptoField)
    (hnodup : (fields.map (fun c => c.Field.Name)).Nodup)
    (haes : ∀ cf ∈ fields, cf.Strategy = some (NewAesCryptoStrategy x key))
    (v : RVal)
    (hv : ∃ t e, (v = RVal.Struct t e ∨ v = RVal.Ptr (RVal.Struct t e)) ∧
      ∀ cf ∈ fields, ∃ s, e cf.Field.Name = Value.str s) :
    DecryptResultAfterQuery.elem fields v = .ok (v.mapStruct (decryptEntity x key fields)) := by
  obtain ⟨t, e, h | h, htyped⟩ := hv
  · subst h
    simp [DecryptResultAfterQuery.elem, decryptFields_eq x key fields hnodup haes e htyped,
      RVal.mapStruct, Except.map]
  · subst h
    simp [DecryptResultAfterQuery.elem, decryptFields_eq x key fields hnodup haes e htyped,
      RVal.mapStruct, Except.map]

theorem getSchemaCryptoFields_again (x : Ext) (reg : Registry) (cache : Cache)
    (schema : Option Schema) :
    getSchemaCryptoFields x reg (getSchemaCryptoFields x reg cache schema).2 schema =
      getSchemaCryptoFields x reg cache schema := by
  cases schema with
  | none => rfl
  | some sc =>
    cases h : cache sc.schemaName with
    | some fields => simp [getSchemaCryptoFields, h]
    | none => simp [getSchemaCryptoFields, h, Cache.set]

theorem EncryptParamBeforeCreate_struct (x : Ext) (reg : Registry) (cache : Cache)
    (schema : Option Schema) (key : GoString)
    (hnodup : ((getSchemaCryptoFields x reg cache schema).1.map (fun c => c.Field.Name)).Nodup)
    (hkind : ∀ cf ∈ (getSchemaCryptoFields x reg cache schema).1,
      cf.Field.FieldType = Kind.String)
    (haes : ∀ cf ∈ (getSchemaCryptoFields x reg cache schema).1,
      cf.Strategy = some (NewAesCryptoStrategy x key))
    (t : List Field) (e : Entity) :
    EncryptParamBeforeCreate x reg cache schema (RVal.Struct t e) =
      .ok ((getSchemaCryptoFields x reg cache schema).2,
        RVal.Struct t (encryptEntity x key (getSchemaCryptoFields x reg cache schema).1 e)) := by
  unfold EncryptParamBeforeCreate
  generalize getSchemaCryptoFields x reg cache schema = r at hnodup hkind haes ⊢
  obtain ⟨fields, cache1⟩ := r
  simp only at hnodup hkind haes ⊢
  by_cases hlen : fields.length = 0
  · have hnil : fields = [] := List.length_eq_zero.mp hlen
    subst hnil
    rfl
  · rw [if_neg hlen]
    have h := encryptFields_held x key fields hnodup hkind haes (RVal.Struct t e)
      ⟨t, e, Or.inl rfl⟩
    simp only [h, RVal.mapStruct]

theorem mapStruct_nil (v : RVal) (f : Entity → Entity) (hf : ∀ e, f e = e) :
    v.mapStruct f = v := by
  unfold RVal.mapStruct
  split <;> simp [hf]

theorem EncryptParamBeforeCreate_slice (x : Ext) (reg : Registry) (cache : Cache)
    (schema : Option Schema) (key : GoString)
    (hnodup : ((getSchemaCryptoFields x reg cache schema).1.map (fun c => c.Field.Name)).Nodup)
    (hkind : ∀ cf ∈ (getSchemaCryptoFields x reg cache schema).1,
      cf.Field.FieldType = Kind.String)
    (haes : ∀ cf ∈ (getSchemaCryptoFields x reg cache schema).1,
      cf.Strategy = some (NewAesCryptoStrategy x key))
    (elem : RType) (vs : List RVal)
    (hvs : ∀ v ∈ vs, ∃ t e, v = RVal.Struct t e ∨ v = RVal.Ptr (RVal.Struct t e)) :
    EncryptParamBeforeCreate x reg cache schema (RVal.Slice elem vs) =
      .ok ((getSchemaCryptoFields x reg cache schema).2,
        RVal.Slice elem (vs.map (RVal.mapStruct
          (encryptEntity x key (getSchemaCryptoFields x reg cache schema).1)))) := by
  unfold EncryptParamBeforeCreate
  generalize getSchemaCryptoFields x reg cache schema = r at hnodup hkind haes ⊢
  obtain ⟨fields, cache1⟩ := r
  simp only at hnodup hkind haes ⊢
  by_cases hlen : fields.length = 0
  · have hnil : fields = [] := List.length_eq_zero.mp hlen
    subst hnil
    have hid : vs.map (RVal.mapStruct (encryptEntity x key [])) = vs := by
      conv_rhs => rw [← List.map_id vs]
      exact List.map_congr_left (fun v _ => mapStruct_nil v _ (fun _ => rfl))
    rw [hid]
    rfl
  · rw [if_neg hlen]
    have h := mapM_ok (fun sliceV => encryptFields sliceV fields)
      (RVal.mapStruct (encryptEntity x key fields)) vs
      (fun v hv => encryptFields_held x key fields hnodup hkind haes v (hvs v hv))
    simp only [h]

/-- C2: let `fields` be the schema's encryptable-field list, with distinct
field names, fields of kind String and the AES strategy of a key on which the
cipher and base64 pairs are inverses. Before-create on a single struct instance
returns with that instance replaced by one that is `Encrypted`: every
descriptor's field with a non-zero value holds `Encrypt` of its string form
(for a non-empty string, a value that starts with the marker and that `Decrypt`
maps back), every descriptor's field with the zero value and every other field
is unchanged. On a slice of `N` instances, held directly or by pointer, it
returns a slice of `N` values in which the value at each position holds the
`Encrypted` instance of the one at that position. -/
theorem C2_before_create (x : Ext) (reg : Registry) (cache : Cache) (schema : Option Schema)
    (key : GoString) (hx : x.Inverse key)
    (hnodup : ((getSchemaCryptoFields x reg cache schema).1.map (fun c => c.Field.Name)).Nodup)
    (hkind : ∀ cf ∈ (getSchemaCryptoFields x reg cache schema).1,
      cf.Field.FieldType = Kind.String)
    (haes : ∀ cf ∈ (getSchemaCryptoFields x reg cache schema).1,
      cf.Strategy = some (NewAesCryptoStrategy x key))
    (t : List Field) (e : Entity) (elem : RType) (vs : List RVal)
    (hvs : ∀ v ∈ vs, ∃ t e, v = RVal.Struct t e ∨ v = RVal.Ptr (RVal.Struct t e)) :
    (∃ e1, EncryptParamBeforeCreate x reg cache schema (RVal.Struct t e) =
        .ok ((getSchemaCryptoFields x reg cache schema).2, RVal.Struct t e1) ∧
      Encrypted x key (getSchemaCryptoFields x reg cache schema).1 e e1) ∧
    (∃ vs1, EncryptParamBeforeCreate x reg cache schema (RVal.Slice elem vs) =
        .ok ((getSchemaCryptoFields x reg cache schema).2, RVal.Slice elem vs1) ∧
      vs1.length = vs.length ∧
      List.Forall₂ (HeldAlike (Encrypted x key (getSchemaCryptoFields x reg cache schema).1))
        vs vs1) := by
  constructor
  · exact ⟨_, EncryptParamBeforeCreate_struct x reg cache schema key hnodup hkind haes t e,
      encryptEntity_encrypted x key hx _ hnodup e⟩
  · refine ⟨_, EncryptParamBeforeCreate_slice x reg cache schema key hnodup hkind haes elem vs hvs,
      List.length_map _ _, ?_⟩
    rw [List.forall₂_map_right_iff, List.forall₂_same]
    intro v hv
    obtain ⟨t1, e1, h | h⟩ := hvs v hv
    · subst h
      exact Or.inl ⟨t1, e1, _, rfl, rfl, encryptEntity_encrypted x key hx _ hnodup e1⟩
    · subst h
      exact Or.inr ⟨t1, e1, _, rfl, rfl, encryptEntity_encrypted x key hx _ hnodup e1⟩

theorem userCryptoFields_eq :
    (getSchemaCryptoFields Ext.sample testRegistry emptyCache (some userSchema)).1 =
      userCryptoFields := rfl

theorem userCryptoFields_aes :
    ∀ cf ∈ (getSchemaCryptoFields Ext.sample testRegistry emptyCache (some userSchema)).1,
      cf.Strategy = some (NewAesCryptoStrategy Ext.sample testKey) := by
  intro cf hcf
  rw [userCryptoFields_eq] at hcf
  simp only [userCryptoFields, List.mem_cons, List.mem_singleton, List.not_mem_nil,
    or_false] at hcf
  rcases hcf with h | h <;> subst h <;> rfl

theorem testUsers_held :
    ∀ v ∈ testUsers, ∃ t e, v = RVal.Struct t e ∨ v = RVal.Ptr (RVal.Struct t e) := by
  intro v hv
  simp only [testUsers, List.mem_cons, List.mem_singleton, List.not_mem_nil, or_false] at hv
  rcases hv with h | h <;> exact ⟨_, _, Or.inr h⟩

theorem C2_before_create_witness :
    (∃ e1, EncryptParamBeforeCreate Ext.sample testRegistry emptyCache (some userSchema)
          (RVal.Struct userFields (userWithEmail (str "user1@example.com"))) =
        .ok ((getSchemaCryptoFields Ext.sample testRegistry emptyCache (some userSchema)).2,
          RVal.Struct userFields e1) ∧
      Encrypted Ext.sample testKey
        (getSchemaCryptoFields Ext.sample testRegistry emptyCache (some userSchema)).1
        (userWithEmail (str "user1@example.com")) e1) ∧
    (∃ vs1, EncryptParamBeforeCreate Ext.sample testRegistry emptyCache (some userSchema)
          (RVal.Slice (RType.Ptr (RType.Struct userFields)) testUsers) =
        .ok ((getSchemaCryptoFields Ext.sample testRegistry emptyCache (some userSchema)).2,
          RVal.Slice (RType.Ptr (RType.Struct userFields)) vs1) ∧
      vs1.length = testUsers.length ∧
      List.Forall₂ (HeldAlike (Encrypted Ext.sample testKey
        (getSchemaCryptoFields Ext.sample testRegistry emptyCache (some userSchema)).1))
        testUsers vs1) :=
  C2_before_create Ext.sample testRegistry emptyCache (some userSchema) testKey
    (Ext.sample_inverse testKey) (by decide) (by decide) userCryptoFields_aes userFields
    (userWithEmail (str "user1@example.com")) (RType.Ptr (RType.Struct userFields)) testUsers
    testUsers_held

/-- C3: let the schema's encryptable-field list have distinct field names,
fields of kind String and the AES strategy of a key on which the cipher and
base64 pairs are inverses, and let every encryptable field of every instance
hold a string. Then before-create
on a slice of `N` instances (held directly or by pointer) returns a slice of `N`
values, and after-query on a pointer to that slice returns the pointer to the
original slice: the same instances at the same positions, every field equal to
its value before the encryption. -/
theorem C3_batch_symmetry (x : Ext) (reg : Registry) (cache : Cache) (schema : Option Schema)
    (key : GoString) (hx : x.Inverse key)
    (hnodup : ((getSchemaCryptoFields x reg cache schema).1.map (fun c => c.Field.Name)).Nodup)
    (hkind : ∀ cf ∈ (getSchemaCryptoFields x reg cache schema).1,
      cf.Field.FieldType = Kind.String)
    (haes : ∀ cf ∈ (getSchemaCryptoFields x reg cache schema).1,
      cf.Strategy = some (NewAesCryptoStrategy x key))
    (elem : RType) (vs : List RVal)
    (hvs : ∀ v ∈ vs, ∃ t e, (v = RVal.Struct t e ∨ v = RVal.Ptr (RVal.Struct t e)) ∧
      ∀ cf ∈ (getSchemaCryptoFields x reg cache schema).1, ∃ s, e cf.Field.Name = Value.str s) :
    ∃ cache1 vs1,
      EncryptParamBeforeCreate x reg cache schema (RVal.Slice elem vs) =
        .ok (cache1, RVal.Slice elem vs1) ∧
      vs1.length = vs.length ∧
      ∃ cache2, DecryptResultAfterQuery x reg cache1 schema (RVal.Ptr (RVal.Slice elem vs1)) =
        .ok (cache2, RVal.Ptr (RVal.Slice elem vs)) := by
  have hvs1 : ∀ v ∈ vs, ∃ t e, v = RVal.Struct t e ∨ v = RVal.Ptr (RVal.Struct t e) := by
    intro v hv
    obtain ⟨t, e, h, _⟩ := hvs v hv
    exact ⟨t, e, h⟩
  refine ⟨_, _, EncryptParamBeforeCreate_slice x reg cache schema key hnodup hkind haes elem vs
    hvs1, List.length_map _ _, (getSchemaCryptoFields x reg cache schema).2, ?_⟩
  unfold DecryptResultAfterQuery
  rw [getSchemaCryptoFields_again]
  generalize getSchemaCryptoFields x reg cache schema = r at hnodup hkind haes hvs ⊢
  obtain ⟨fields, cache1⟩ := r
  simp only at hnodup hkind haes hvs ⊢
  have hback : (vs.map (RVal.mapStruct (encryptEntity x key fields))).map
      (RVal.mapStruct (decryptEntity x key fields)) = vs := by
    rw [List.map_map]
    conv_rhs => rw [← List.map_id vs]
    apply List.map_congr_left
    intro v hv
    obtain ⟨t, e, h, htyped⟩ := hvs v hv
    rcases h with h | h
    · subst h
      simp [RVal.mapStruct, decryptEntity_encryptEntity x key hx fields e htyped]
    · subst h
      simp [RVal.mapStruct, decryptEntity_encryptEntity x key hx fields e htyped]
  by_cases hlen : fields.length = 0
  · have hnil : fields = [] := List.length_eq_zero.mp hlen
    subst hnil
    have hid : vs.map (RVal.mapStruct (encryptEntity x key [])) = vs := by
      conv_rhs => rw [← List.map_id vs]
      exact List.map_congr_left (fun v _ => mapStruct_nil v _ (fun _ => rfl))
    rw [hid]
    rfl
  · rw [if_neg hlen]
    have h := mapM_ok (DecryptResultAfterQuery.elem fields)
      (RVal.mapStruct (decryptEntity x key fields))
      (vs.map (RVal.mapStruct (encryptEntity x key fields)))
      (by
        intro v1 hv1
        obtain ⟨v, hv, rfl⟩ := List.mem_map.mp hv1
        obtain ⟨t, e, h, htyped⟩ := hvs v hv
        apply decryptElem_held x key fields hnodup haes
        rcases h with h | h
        · subst h
          exact ⟨t, _, Or.inl rfl, encryptEntity_typed x key fields e htyped⟩
        · subst h
          exact ⟨t, _, Or.inr rfl, encryptEntity_typed x key fields e htyped⟩)
    simp only [RVal.Elem, h, hback]

theorem testUsers_typed :
    ∀ v ∈ testUsers, ∃ t e, (v = RVal.Struct t e ∨ v = RVal.Ptr (RVal.Struct t e)) ∧
      ∀ cf ∈ (getSchemaCryptoFields Ext.sample testRegistry emptyCache (some userSchema)).1,
        ∃ s, e cf.Field.Name = Value.str s := by
  intro v hv
  simp only [testUsers, List.mem_cons, List.mem_singleton, List.not_mem_nil, or_false] at hv
  rcases hv with h | h
  · refine ⟨_, _, Or.inr h, ?_⟩
    intro cf hcf
    rw [userCryptoFields_eq] at hcf
    simp only [userCryptoFields, List.mem_cons, List.mem_singleton, List.not_mem_nil,
      or_false] at hcf
    rcases hcf with h1 | h1 <;> subst h1 <;> exact ⟨_, rfl⟩
  · refine ⟨_, _, Or.inr h, ?_⟩
    intro cf hcf
    rw [userCryptoFields_eq] at hcf
    simp only [userCryptoFields, List.mem_cons, List.mem_singleton, List.not_mem_nil,
      or_false] at hcf
    rcases hcf with h1 | h1 <;> subst h1 <;> exact ⟨_, rfl⟩

theorem C3_batch_symmetry_witness :
    ∃ cache1 vs1,
      EncryptParamBeforeCreate Ext.sample testRegistry emptyCache (some userSchema)
          (RVal.Slice (RType.Ptr (RType.Struct userFields)) testUsers) =
        .ok (cache1, RVal.Slice (RType.Ptr (RType.Struct userFields)) vs1) ∧
      vs1.length = testUsers.length ∧
      ∃ cache2, DecryptResultAfterQuery Ext.sample testRegistry cache1 (some userSchema)
          (RVal.Ptr (RVal.Slice (RType.Ptr (RType.Struct userFields)) vs1)) =
        .ok (cache2, RVal.Ptr (RVal.Slice (RType.Ptr (RType.Struct userFields)) testUsers)) :=
  C3_batch_symmetry Ext.sample testRegistry emptyCache (some userSchema) testKey
    (Ext.sample_inverse testKey) (by decide) (by decide) userCryptoFields_aes
    (RType.Ptr (RType.Struct userFields)) testUsers testUsers_typed

/-! ## Before-query -/

theorem findCryptField_mem (n : GoString) (fields : List CryptoField) (cf : CryptoField)
    (h : findCryptField n fields = some cf) : cf ∈ fields := by
  unfold findCryptField at h
  by_cases hn : n = []
  · simp [hn] at h
  · rw [if_neg hn] at h
    exact List.mem_of_find?_eq_some h

theorem findCryptFieldWithClauseColumn_mem (column : Value) (fields : List CryptoField)
    (cf : CryptoField) (h : findCryptFieldWithClauseColumn column fields = some cf) :
    cf ∈ fields := by
  unfold findCryptFieldWithClauseColumn at h
  split at h
  · exact findCryptField_mem _ _ _ h
  · exact findCryptField_mem _ _ _ h
  · cases h

theorem var_eq (fields : List CryptoField)
    (hstrat : ∀ cf ∈ fields, ∃ st, cf.Strategy = some st) (v : Value) :
    EncryptParamBeforeQuery.var fields v =
      .ok (EncryptParamBeforeQuery.varResult fields v) := by
  cases v with
  | cryptoValue column value =>
    simp only [EncryptParamBeforeQuery.var, EncryptParamBeforeQuery.varResult,
      findCryptFieldWithClauseColumn]
    cases hf : findCryptField column fields with
    | none => rfl
    | some cf =>
      obtain ⟨st, hst⟩ := hstrat cf (findCryptField_mem _ _ _ hf)
      simp [CryptoField.callEncrypt, hst, Except.map]
  | nil => rfl
  | str s => rfl
  | int n => rfl
  | bool b => rfl
  | column t n => rfl

theorem encryptValues_elem_eq (cf : CryptoField) (st : CryptoStrategy)
    (hst : cf.Strategy = some st) (v : Value) :
    encryptValues.elem cf v = .ok (encryptValues.elemResult cf v) := by
  cases v <;> simp [encryptValues.elem, encryptValues.elemResult, CryptoField.callEncrypt, hst,
    Except.map]

theorem expr_eq (fields : List CryptoField)
    (hstrat : ∀ cf ∈ fields, ∃ st, cf.Strategy = some st) (expr : Expression)
    (heq : ∀ column value, expr = Expression.Eq column value →
      (findCryptFieldWithClauseColumn column fields).isSome → ∃ s, value = Value.str s) :
    EncryptParamBeforeQuery.expr fields expr =
      .ok (EncryptParamBeforeQuery.exprResult fields expr) := by
  cases expr with
  | Eq column value =>
    simp only [EncryptParamBeforeQuery.expr, EncryptParamBeforeQuery.exprResult]
    cases hf : findCryptFieldWithClauseColumn column fields with
    | none => rfl
    | some cf =>
      obtain ⟨s, hs⟩ := heq column value rfl (by simp [hf])
      obtain ⟨st, hst⟩ := hstrat cf (findCryptFieldWithClauseColumn_mem _ _ _ hf)
      subst hs
      simp [CryptoField.callEncrypt, hst, Except.map, encryptValues.elemResult]
  | IN column values =>
    simp only [EncryptParamBeforeQuery.expr, EncryptParamBeforeQuery.exprResult]
    cases hf : findCryptFieldWithClauseColumn column fields with
    | none => rfl
    | some cf =>
      obtain ⟨st, hst⟩ := hstrat cf (findCryptFieldWithClauseColumn_mem _ _ _ hf)
      have h := mapM_ok (encryptValues.elem cf) (encryptValues.elemResult cf) values
        (fun v _ => encryptValues_elem_eq cf st hst v)
      simp only [encryptValues, h, Except.map]
  | Expr sql vars =>
    have h := mapM_ok (EncryptParamBeforeQuery.var fields)
      (EncryptParamBeforeQuery.varResult fields) vars (fun v _ => var_eq fields hstrat v)
    simp only [EncryptParamBeforeQuery.expr, EncryptParamBeforeQuery.exprResult, h, Except.map]
  | AndConditions es => rfl
  | OrConditions es => rfl
  | NotConditions es => rfl
  | Other tag => rfl

theorem exprResult_nil (expr : Expression) :
    EncryptParamBeforeQuery.exprResult [] expr = expr := by
  cases expr with
  | Eq column value =>
    cases column <;> simp [EncryptParamBeforeQuery.exprResult, findCryptFieldWithClauseColumn,
      findCryptField]
  | IN column values =>
    cases column <;> simp [EncryptParamBeforeQuery.exprResult, findCryptFieldWithClauseColumn,
      findCryptField]
  | Expr sql vars =>
    have hv : ∀ v, EncryptParamBeforeQuery.varResult [] v = v := by
      intro v
      cases v <;> simp [EncryptParamBeforeQuery.varResult, findCryptField]
    have hid : EncryptParamBeforeQuery.varResult [] = id := funext hv
    simp [EncryptParamBeforeQuery.exprResult, hid]
  | AndConditions es => rfl
  | OrConditions es => rfl
  | NotConditions es => rfl
  | Other tag => rfl

theorem EncryptParamBeforeQuery_eq (x : Ext) (reg : Registry) (cache : Cache)
    (schema : Option Schema) (exprs : List Expression)
    (hstrat : ∀ cf ∈ (getSchemaCryptoFields x reg cache schema).1, ∃ st, cf.Strategy = some st)
    (heq : ∀ column value, Expression.Eq column value ∈ exprs →
      (findCryptFieldWithClauseColumn column (getSchemaCryptoFields x reg cache schema).1).isSome →
      ∃ s, value = Value.str s) :
    EncryptParamBeforeQuery x reg cache schema (some exprs) =
      .ok ((getSchemaCryptoFields x reg cache schema).2,
        some (exprs.map (EncryptParamBeforeQuery.exprResult
          (getSchemaCryptoFields x reg cache schema).1))) := by
  unfold EncryptParamBeforeQuery
  generalize getSchemaCryptoFields x reg cache schema = r at hstrat heq ⊢
  obtain ⟨fields, cache1⟩ := r
  simp only at hstrat heq ⊢
  by_cases hlen : fields.length = 0
  · have hnil : fields = [] := List.length_eq_zero.mp hlen
    subst hnil
    have hid : exprs.map (EncryptParamBeforeQuery.exprResult []) = exprs := by
      conv_rhs => rw [← List.map_id exprs]
      exact List.map_congr_left (fun v _ => exprResult_nil v)
    rw [hid]
    rfl
  · rw [if_neg hlen]
    have h := mapM_ok (EncryptParamBeforeQuery.expr fields)
      (EncryptParamBeforeQuery.exprResult fields) exprs
      (fun ex hex => expr_eq fields hstrat ex (fun column value hc => heq column value (hc ▸ hex)))
    simp only [h]

theorem findCryptField_first (n : GoString) (pre post : List CryptoField) (cf : CryptoField)
    (hn : n ≠ []) (hpre : ∀ c ∈ pre, c.Field.DBName ≠ n) (hcf : cf.Field.DBName = n) :
    findCryptField n (pre ++ cf :: post) = some cf := by
  unfold findCryptField
  rw [if_neg hn]
  induction pre with
  | nil => simp [List.find?_cons, hcf]
  | cons c rest ih =>
    have hc : c.Field.DBName ≠ n := hpre c (List.mem_cons_self _ _)
    simp only [List.cons_append, List.find?_cons, hc, decide_False]
    exact ih (fun d hd => hpre d (List.mem_cons_of_mem _ hd))

theorem findCryptField_absent (n : GoString) (fields : List CryptoField)
    (h : n = [] ∨ ∀ c ∈ fields, c.Field.DBName ≠ n) : findCryptField n fields = none := by
  unfold findCryptField
  by_cases hn : n = []
  · rw [if_pos hn]
  · rw [if_neg hn]
    rcases h with h | h
    · exact absurd h hn
    · simp only [List.find?_eq_none, decide_eq_true_eq]
      exact h

theorem findCryptField_dbname (n : GoString) (fields : List CryptoField) (cf : CryptoField)
    (h : findCryptField n fields = some cf) : cf.Field.DBName = n ∧ n ≠ [] := by
  unfold findCryptField at h
  by_cases hn : n = []
  · simp [hn] at h
  · rw [if_neg hn] at h
    have h1 := List.find?_some h
    exact ⟨by simpa using h1, hn⟩

theorem findCryptFieldWithClauseColumn_names (column : Value) (fields : List CryptoField)
    (cf : CryptoField) (h : findCryptFieldWithClauseColumn column fields = some cf) :
    ∃ n, (column = Value.str n ∨ ∃ t, column = Value.column t n) ∧ n ≠ [] ∧
      cf ∈ fields ∧ cf.Field.DBName = n := by
  unfold findCryptFieldWithClauseColumn at h
  split at h
  · rename_i c
    exact ⟨c, Or.inl rfl, (findCryptField_dbname _ _ _ h).2, findCryptField_mem _ _ _ h,
      (findCryptField_dbname _ _ _ h).1⟩
  · rename_i t name
    exact ⟨name, Or.inr ⟨t, rfl⟩, (findCryptField_dbname _ _ _ h).2,
      findCryptField_mem _ _ _ h, (findCryptField_dbname _ _ _ h).1⟩
  · cases h

/-- C7: let `fields` be the schema's encryptable-field list with no nil strategy,
and `exprs` a WHERE list in which every equality literal is a string or stands
on a column that is not the column name of a descriptor. Before-query returns a
list of the same length. For every raw expression `Expr sql vars` that is an
element of the list, the element at the same position is `Expr sql vars1` with
`vars1` as long as `vars`; at each index, a `*CryptoValue` whose non-empty
column is the column name (`DBName`) of a descriptor is replaced by the plain
string `Strategy.Encrypt(value, Field)` of the first such descriptor `cf`, and an
argument that is no `*CryptoValue`, or whose column is empty or the column name
of no descriptor, is unchanged (every bare string literal among them). The
elements of the list that are `AndConditions`, `OrConditions` or
`NotConditions` are returned as they are, with the raw expressions inside them
not rewritten. -/
theorem C7_raw_expression (x : Ext) (reg : Registry) (cache : Cache) (schema : Option Schema)
    (exprs : List Expression)
    (hstrat : ∀ cf ∈ (getSchemaCryptoFields x reg cache schema).1, ∃ st, cf.Strategy = some st)
    (heq : ∀ column value, Expression.Eq column value ∈ exprs →
      (∃ s, value = Value.str s) ∨
      ∀ n, (column = Value.str n ∨ ∃ t, column = Value.column t n) →
        n = [] ∨ ∀ c ∈ (getSchemaCryptoFields x reg cache schema).1, c.Field.DBName ≠ n) :
    ∃ exprs1, EncryptParamBeforeQuery x reg cache schema (some exprs) =
        .ok ((getSchemaCryptoFields x reg cache schema).2, some exprs1) ∧
      exprs1.length = exprs.length ∧
      (∀ (i : Nat) (sql : GoString) (vars : List Value),
        exprs[i]? = some (Expression.Expr sql vars) →
        ∃ vars1, exprs1[i]? = some (Expression.Expr sql vars1) ∧
          vars1.length = vars.length ∧
          ∀ (j : Nat) (v : Value), vars[j]? = some v →
            (∀ column value pre cf post, v = Value.cryptoValue column value →
              column ≠ [] →
              (getSchemaCryptoFields x reg cache schema).1 = pre ++ cf :: post →
              (∀ c ∈ pre, c.Field.DBName ≠ column) →
              cf.Field.DBName = column →
              ∃ st, cf.Strategy = some st ∧
                vars1[j]? = some (Value.str (st.Encrypt value (some cf.Field)))) ∧
            ((∀ column value, v = Value.cryptoValue column value →
                column = [] ∨
                ∀ c ∈ (getSchemaCryptoFields x reg cache schema).1, c.Field.DBName ≠ column) →
              vars1[j]? = some v)) ∧
      (∀ (i : Nat) (es : List Expression),
        (exprs[i]? = some (Expression.AndConditions es) →
          exprs1[i]? = some (Expression.AndConditions es)) ∧
        (exprs[i]? = some (Expression.OrConditions es) →
          exprs1[i]? = some (Expression.OrConditions es)) ∧
        (exprs[i]? = some (Expression.NotConditions es) →
          exprs1[i]? = some (Expression.NotConditions es))) := by
  have heq1 : ∀ column value, Expression.Eq column value ∈ exprs →
      (findCryptFieldWithClauseColumn column
        (getSchemaCryptoFields x reg cache schema).1).isSome → ∃ s, value = Value.str s := by
    intro column value hmem hsome
    rcases heq column value hmem with h | h
    · exact h
    · obtain ⟨cf, hcf⟩ := Option.isSome_iff_exists.mp hsome
      obtain ⟨n, hcol, hn, hin, hdb⟩ := findCryptFieldWithClauseColumn_names _ _ _ hcf
      rcases h n hcol with h1 | h1
      · exact absurd h1 hn
      · exact absurd hdb (h1 cf hin)
  refine ⟨_, EncryptParamBeforeQuery_eq x reg cache schema exprs hstrat heq1,
    List.length_map _ _, ?_, ?_⟩
  · intro i sql vars hi
    refine ⟨vars.map
      (EncryptParamBeforeQuery.varResult (getSchemaCryptoFields x reg cache schema).1),
      ?_, List.length_map _ _, ?_⟩
    · rw [List.getElem?_map, hi]
      rfl
    · intro j v hj
      rw [List.getElem?_map, hj]
      constructor
      · intro column value pre cf post hv hcol hsplit hpre hdb
        have hf : findCryptField column (getSchemaCryptoFields x reg cache schema).1 =
            some cf := by
          rw [hsplit]
          exact findCryptField_first column pre post cf hcol hpre hdb
        obtain ⟨st, hst⟩ := hstrat cf (findCryptField_mem _ _ _ hf)
        refine ⟨st, hst, ?_⟩
        subst hv
        simp [EncryptParamBeforeQuery.varResult, hf, hst]
      · intro hnone
        cases v with
        | cryptoValue column value =>
          have hf := findCryptField_absent column _ (hnone column value rfl)
          simp [EncryptParamBeforeQuery.varResult, hf]
        | nil => rfl
        | str s => rfl
        | int n => rfl
        | bool b => rfl
        | column t n => rfl
  · intro i es
    refine ⟨?_, ?_, ?_⟩ <;>
    · intro hi
      rw [List.getElem?_map, hi]
      rfl

theorem userCryptoFields_strategy :
    ∀ cf ∈ (getSchemaCryptoFields Ext.sample testRegistry emptyCache (some userSchema)).1,
      ∃ st, cf.Strategy = some st :=
  fun cf hcf => ⟨_, userCryptoFields_aes cf hcf⟩

theorem testRawWhere_no_eq (fields : List CryptoField) :
    ∀ column value, Expression.Eq column value ∈ testRawWhere →
      (∃ s, value = Value.str s) ∨
      ∀ n, (column = Value.str n ∨ ∃ t, column = Value.column t n) →
        n = [] ∨ ∀ c ∈ fields, c.Field.DBName ≠ n := by
  intro column value h
  simp [testRawWhere] at h

theorem C7_raw_expression_witness :
    ∃ exprs1, EncryptParamBeforeQuery Ext.sample testRegistry emptyCache (some userSchema)
          (some testRawWhere) =
        .ok ((getSchemaCryptoFields Ext.sample testRegistry emptyCache (some userSchema)).2,
          some exprs1) ∧
      exprs1.length = testRawWhere.length ∧
      (∀ (i : Nat) (sql : GoString) (vars : List Value),
        testRawWhere[i]? = some (Expression.Expr sql vars) →
        ∃ vars1, exprs1[i]? = some (Expression.Expr sql vars1) ∧
          vars1.length = vars.length ∧
          ∀ (j : Nat) (v : Value), vars[j]? = some v →
            (∀ column value pre cf post, v = Value.cryptoValue column value →
              column ≠ [] →
              (getSchemaCryptoFields Ext.sample testRegistry emptyCache (some userSchema)).1 =
                pre ++ cf :: post →
              (∀ c ∈ pre, c.Field.DBName ≠ column) →
              cf.Field.DBName = column →
              ∃ st, cf.Strategy = some st ∧
                vars1[j]? = some (Value.str (st.Encrypt value (some cf.Field)))) ∧
            ((∀ column value, v = Value.cryptoValue column value →
                column = [] ∨
                ∀ c ∈ (getSchemaCryptoFields Ext.sample testRegistry emptyCache
                  (some userSchema)).1, c.Field.DBName ≠ column) →
              vars1[j]? = some v)) ∧
      (∀ (i : Nat) (es : List Expression),
        (testRawWhere[i]? = some (Expression.AndConditions es) →
          exprs1[i]? = some (Expression.AndConditions es)) ∧
        (testRawWhere[i]? = some (Expression.OrConditions es) →
          exprs1[i]? = some (Expression.OrConditions es)) ∧
        (testRawWhere[i]? = some (Expression.NotConditions es) →
          exprs1[i]? = some (Expression.NotConditions es))) :=
  C7_raw_expression Ext.sample testRegistry emptyCache (some userSchema) testRawWhere
    userCryptoFields_strategy (testRawWhere_no_eq _)

/-- C7, counterexample: in the WHERE list of
`db.Where("name = ?", "User1").Or("email = ?", NewCryptoValue("email", "user1@example.com"))`
the second raw expression lies inside a `clause.OrConditions`. Its argument is
a `*CryptoValue` whose column `email` is the column name of the descriptor of
`Email`, yet before-query returns the list as it was: the argument is still the
`*CryptoValue`, not the encrypted string. -/
theorem C7_nested_raw_expression_not_rewritten :
    (∃ cf ∈ (getSchemaCryptoFields Ext.sample testRegistry emptyCache (some userSchema)).1,
      cf.Field.DBName = str "email") ∧
    testNestedWhere[1]? = some (Expression.OrConditions
      [Expression.Expr (str "email = ?")
        [Value.cryptoValue (str "email") (str "user1@example.com")]]) ∧
    ∃ cache1, EncryptParamBeforeQuery Ext.sample testRegistry emptyCache (some userSchema)
        (some testNestedWhere) = .ok (cache1, some testNestedWhere) := by
  refine ⟨?_, rfl, _, rfl⟩
  rw [userCryptoFields_eq]
  exact ⟨_, List.mem_cons_self _ _, rfl⟩

/-! ## Inputs on which an interceptor panics -/

/-- C4: on the WHERE list of `db.Where(map[string]interface{}{"email": nil})`, an
equality on the encryptable column `email` whose literal is not a string,
before-query panics on the type assertion `eq.Value.(string)`, while the same
literal inside an IN list on that column is passed through by `encryptValues`. -/
theorem C4_eq_literal_assertion_panics :
    EncryptParamBeforeQuery Ext.sample testRegistry emptyCache (some userSchema)
        (some [Expression.Eq (Value.str (str "email")) Value.nil]) =
      .error Panic.typeAssertion ∧
    EncryptParamBeforeQuery.expr userCryptoFields
        (Expression.IN (Value.str (str "email")) [Value.nil]) =
      .ok (Expression.IN (Value.str (str "email")) [Value.nil]) := by
  constructor <;> rfl

/-- C5: on the mapping `{"nickname": "x"}`, whose key names no field of the schema
of `User`, before-update panics on the nil result of `LookUpField`. -/
theorem C5_unknown_column_panics :
    EncryptParamBeforeUpdate Ext.sample testRegistry (some userSchema)
        (RVal.Map [(str "nickname", Value.str (str "x"))]) =
      .error Panic.nilDeref := by
  rfl

/-- C6: on the struct value `User{Email: "user1113@example.com"}` given by value, as
in `Updates(User{...})` of the test, before-update panics in `getReflectElem` on
`destType.Elem()`, while before-create on the same instance returns. -/
theorem C6_struct_by_value_panics :
    EncryptParamBeforeUpdate Ext.sample testRegistry (some userSchema)
        (RVal.Struct userFields (userWithEmail (str "user1113@example.com"))) =
      .error Panic.reflectKind ∧
    ∃ cache1 e1, EncryptParamBeforeCreate Ext.sample testRegistry emptyCache (some userSchema)
        (RVal.Struct userFields (userWithEmail (str "user1113@example.com"))) =
      .ok (cache1, RVal.Struct userFields e1) := by
  constructor
  · rfl
  · exact ⟨_, _, rfl⟩

end GormCrypto
